import Mathlib

/-!
Verification of the ProjectZipperAI extraction pipeline.

The development shallowly embeds the pipeline core of the repository:
the regex-based text-to-file extractor (`parseWithRegex`), the three
AI-assisted workflow step executors (`findAdditionalFiles`,
`extractDocumentationNotes`, `generateReadme`) and the orchestrator
(`handleProcessInput` with its README upsert and empty-result check).

The AI service boundary is modelled by an explicit outcome value: each
executor receives, instead of performing a network call, either
`noClient` (no API key was available, `getAiClient` returned null),
`threw msg` (the `generateContent` call threw an error with message
`msg`), or `replied v` (the call returned; for the two structured steps
`v` is the result of the defensive `safeJsonParse` of the response text,
i.e. `Option Json`; for README generation `v` is the raw response text).

Strings are processed at the character-list level; JavaScript string
indices are UTF-16 code units while Lean indexes characters, which
agrees on the inputs considered here.
-/

namespace ProjectZipper

/-- A parsed JSON value, the result type of `JSON.parse` on the AI
response.  Numbers are modelled as integers; no claim depends on
numeric values, only on the tags. -/
inductive Json where
  | null
  | bool (b : Bool)
  | num (n : Int)
  | str (s : String)
  | arr (elems : List Json)
  | obj (fields : List (String × Json))

/-- Property access `j.k` on a parsed JSON value: only objects have
properties; `JSON.parse` keeps the last of duplicate keys, so lookup
prefers the last binding. -/
def jsonField (j : Json) (k : String) : Option Json :=
  match j with
  | .obj fields => (fields.reverse.find? (fun p => p.1 == k)).map (fun p => p.2)
  | _ => none

/-- `ParsedFile` from `types`: a path plus raw content. -/
structure ParsedFile where
  path : String
  content : String
deriving DecidableEq

/-- `PipelineData` from `types`: the state threaded through the
workflow steps. -/
structure PipelineData where
  fullProjectContent : String
  files : List ParsedFile
  documentationNotes : String
deriving DecidableEq

/-- The outcome of one AI interaction, abstracting the network
boundary of a step executor (see the file comment). -/
inductive GenOutcome (α : Type) where
  | noClient
  | threw (msg : String)
  | replied (response : α)

/-- The GetSubstitution expansion JavaScript `String.replace` applies
to the replacement string: a dollar sign starts an escape — `$$` is a
literal dollar, `$&` the matched text, a dollar followed by a backtick
the text before the match, `$'` (dollar apostrophe) the text after the
match; with a string pattern there are no capture groups, so every
other dollar sequence stays literal. -/
def getSubstitution (matched before after : List Char) : List Char → List Char
  | [] => []
  | c :: rest =>
      if c = '$' then
        match rest with
        | [] => ['$']
        | d :: rs =>
            if d = '$' then '$' :: getSubstitution matched before after rs
            else if d = '&' then matched ++ getSubstitution matched before after rs
            else if d = Char.ofNat 96 then before ++ getSubstitution matched before after rs
            else if d = '\x27' then after ++ getSubstitution matched before after rs
            else '$' :: getSubstitution matched before after (d :: rs)
      else c :: getSubstitution matched before after rest

/-- Split a text at the leftmost occurrence of `pat`: the characters
before the occurrence and the characters after it, or `none` when
`pat` does not occur. -/
def splitAtPat (pat : List Char) : List Char → Option (List Char × List Char)
  | [] => if pat.isEmpty then some ([], []) else none
  | c :: cs =>
      if pat.isPrefixOf (c :: cs) then some ([], (c :: cs).drop pat.length)
      else
        match splitAtPat pat cs with
        | some (before, after) => some (c :: before, after)
        | none => none

/-- The embedding of JavaScript `String.replace(pattern, replacement)`
with a string pattern: only the leftmost occurrence is replaced, and
the replacement string goes through GetSubstitution (dollar escapes),
so it is inserted verbatim only when it contains no active dollar
sequence. -/
def replaceFirstL (pat rep text : List Char) : List Char :=
  match splitAtPat pat text with
  | none => text
  | some (before, after) =>
      before ++ (getSubstitution pat before after rep ++ after)

/-- String wrapper around `replaceFirstL`. -/
def replaceFirst (s pat rep : String) : String :=
  String.mk (replaceFirstL pat.data rep.data s.data)

/-- One hexadecimal digit, lower case, as produced by
`JSON.stringify` for control-character escapes. -/
def hexDigit (n : Nat) : Char :=
  if n < 10 then Char.ofNat (48 + n) else Char.ofNat (87 + n)

/-- The escape sequence `JSON.stringify` emits for one character of a
string. -/
def jsonEscapeChar (c : Char) : List Char :=
  if c = '"' then ['\\', '"']
  else if c = '\\' then ['\\', '\\']
  else if c = '\n' then ['\\', 'n']
  else if c = '\r' then ['\\', 'r']
  else if c = '\t' then ['\\', 't']
  else if c = '\x08' then ['\\', 'b']
  else if c = '\x0c' then ['\\', 'f']
  else if c.toNat < 32 then
    ['\\', 'u', '0', '0', hexDigit (c.toNat / 16), hexDigit (c.toNat % 16)]
  else [c]

/-- `JSON.stringify` of a single string. -/
def jsonQuote (s : String) : String :=
  String.mk ('"' :: (s.data.foldr (fun c acc => jsonEscapeChar c ++ acc) ['"']))

/-- `JSON.stringify` of an array of strings. -/
def jsonStringifyPaths (ps : List String) : String :=
  "[" ++ String.intercalate "," (ps.map jsonQuote) ++ "]"

/-- The effective prompt built by `findAdditionalFiles` (projectParser,
lines 173–176): the parsed file paths are JSON-encoded, or the literal
`"Nessuno"` when no file has been parsed yet; the two placeholder
tokens are substituted by `String.replace`. -/
def findAdditionalFilesPrompt (pipelineData : PipelineData) (promptText : String) : String :=
  let parsedFilePaths :=
    if pipelineData.files.length > 0 then
      jsonStringifyPaths (pipelineData.files.map (fun f => f.path))
    else "Nessuno"
  replaceFirst
    (replaceFirst promptText "ORIGINAL_CONTENT_PLACEHOLDER" pipelineData.fullProjectContent)
    "PARSED_FILES_PLACEHOLDER" parsedFilePaths

/-- The same prompt construction, written from the specification text
instead of the source: the specification names the literal marker
`"None"` for an empty file collection.  Kept separate so the two can
be compared. -/
def findAdditionalFilesPromptSpec (pipelineData : PipelineData) (promptText : String) : String :=
  let parsedFilePaths :=
    if pipelineData.files.length > 0 then
      jsonStringifyPaths (pipelineData.files.map (fun f => f.path))
    else "None"
  replaceFirst
    (replaceFirst promptText "ORIGINAL_CONTENT_PLACEHOLDER" pipelineData.fullProjectContent)
    "PARSED_FILES_PLACEHOLDER" parsedFilePaths

/-- One iteration of the `additionalFiles.forEach` loop in
`findAdditionalFiles`: a candidate is appended only when it is an
object with string `path` and `content` and its path is not in the
`existingPaths` set; the set tracks paths added earlier in the same
batch. -/
def addCandidate (acc : List ParsedFile × List String) (file : Json) :
    List ParsedFile × List String :=
  match jsonField file "path", jsonField file "content" with
  | some (.str p), some (.str c) =>
      if acc.2.contains p then acc
      else (acc.1 ++ [{ path := p, content := c }], acc.2 ++ [p])
  | _, _ => acc

/-- The Find Additional Files step executor (projectParser, lines
165–201).  With no client the state is returned as is; a thrown
service error is caught and the state returned as is; otherwise the
parsed response's `additionalFiles` array (defaulting to empty when
the response is null or the field is absent) is folded over
`addCandidate`. -/
def findAdditionalFiles (pipelineData : PipelineData) (promptText : String)
    (outcome : GenOutcome (Option Json)) : PipelineData :=
  match outcome with
  | .noClient => pipelineData
  | .threw _ => pipelineData
  | .replied aiResult =>
      let additionalFiles : Json :=
        match aiResult with
        | some j => (jsonField j "additionalFiles").getD (Json.arr [])
        | none => Json.arr []
      match additionalFiles with
      | .arr items =>
          { pipelineData with
            files :=
              (items.foldl addCandidate
                (pipelineData.files, pipelineData.files.map (fun f => f.path))).1 }
      | _ => pipelineData

/-- The fallback diagnostic note appended by `extractDocumentationNotes`
when the AI call throws. -/
def docFallbackNote (msg : String) : String :=
  "Estrazione della documentazione AI fallita. Errore: " ++ msg

/-- The Extract Documentation Notes step executor (projectParser, lines
212–238).  With no client the state is returned as is.  When the call
returns, the notes are replaced only if the parsed response is an
object with a string `documentationNotes` field; otherwise nothing
changes.  Only a thrown error appends the fallback diagnostic,
preserving non-empty prior notes. -/
def extractDocumentationNotes (pipelineData : PipelineData) (promptText : String)
    (outcome : GenOutcome (Option Json)) : PipelineData :=
  match outcome with
  | .noClient => pipelineData
  | .replied aiResult =>
      match aiResult with
      | some j =>
          match jsonField j "documentationNotes" with
          | some (.str s) => { pipelineData with documentationNotes := s }
          | _ => pipelineData
      | none => pipelineData
  | .threw msg =>
      let fallbackNote := docFallbackNote msg
      { pipelineData with
        documentationNotes :=
          if pipelineData.documentationNotes ≠ "" then
            pipelineData.documentationNotes ++ "\n" ++ fallbackNote
          else fallbackNote }

/-- The fixed markdown returned by `generateReadme` when no API key is
configured (documentationService, lines 184–186). -/
def readmeNoKeyFallback : String :=
  "# Generazione README Saltata\n\nImpossibile generare il README perché non è stata configurata una chiave API. Aggiungine una nelle impostazioni."

/-- The fallback markdown document returned by `generateReadme` when
the AI call throws, embedding the error message. -/
def readmeErrorFallback (msg : String) : String :=
  "# Documentazione del Progetto\n\n**Attenzione: Impossibile generare automaticamente il README.md a causa di un errore.**\n\nQuesto è un file segnaposto. Si prega di esaminare i file sorgente del progetto per comprenderne la struttura e lo scopo.\n\n**Dettagli dell\x27Errore:**\n```\n" ++ msg ++ "\n```"

/-- The Generate README step executor (documentationService, lines
181–211): fixed fallback without a key, trimmed response text on
success, fallback document embedding the message on a thrown error. -/
def generateReadme (pipelineData : PipelineData) (promptContent : String)
    (outcome : GenOutcome String) : String :=
  match outcome with
  | .noClient => readmeNoKeyFallback
  | .replied text => text.trim
  | .threw msg => readmeErrorFallback msg

/-! ## Text-to-File Extractor (`parseWithRegex`, projectParser lines 38–80) -/

/-- The backtick character, used by the header grammar. -/
def backtick : Char := Char.ofNat 96

/-- The section delimiter the source splits on:
`fileContent.split(/\n---\n/)` uses the five-character sequence
newline, three hyphens, newline. -/
def sepL : List Char := ['\n', '-', '-', '-', '\n']

/-- JavaScript `String.trim` over a character list (both ends). -/
def trimChars (cs : List Char) : List Char :=
  ((cs.dropWhile Char.isWhitespace).reverse.dropWhile Char.isWhitespace).reverse

/-- Scan up to the first occurrence of the section delimiter:
returns the piece before it and, when a delimiter was found, the
remaining characters after it. -/
def takeToSep : List Char → List Char × Option (List Char)
  | [] => ([], none)
  | c :: cs =>
      if sepL.isPrefixOf (c :: cs) then ([], some ((c :: cs).drop 5))
      else
        let r := takeToSep cs
        (c :: r.1, r.2)

/-- Fueled splitting at non-overlapping occurrences of the section
delimiter, scanning left to right — the embedding of
`split(/\n---\n/)`.  The fuel only bounds the number of produced
pieces; `splitSections` supplies enough of it. -/
def splitSectionsF : Nat → List Char → List (List Char)
  | 0, cs => [cs]
  | fuel + 1, cs =>
      match takeToSep cs with
      | (p, none) => [p]
      | (p, some rest) => p :: splitSectionsF fuel rest

/-- `fileContent.split(/\n---\n/)` on the character list. -/
def splitSections (cs : List Char) : List (List Char) :=
  splitSectionsF cs.length cs

/-- A character allowed in a header path: the class `[-\w./]` (word
character, dot, slash or hyphen) of the header pattern. -/
def isPathChar (c : Char) : Bool :=
  c.isAlphanum || c = '_' || c = '.' || c = '/' || c = '-'

/-- At a backtick, try to read a non-empty run of path characters
followed by a closing backtick (the trailing part of the header
pattern); `rest` is the text after the opening backtick. -/
def tryToken (rest : List Char) : Option (List Char) :=
  let run := rest.takeWhile isPathChar
  if run.isEmpty then none
  else if (rest.drop run.length).head? = some backtick then some run else none

/-- The capture chosen by the greedy `.*` of the header pattern: the
token match starting at the rightmost possible backtick. -/
def lastTokenMatch : List Char → Option (List Char)
  | [] => none
  | c :: rest =>
      match lastTokenMatch rest with
      | some r => some r
      | none => if c = backtick then tryToken rest else none

/-- The header match of `parseWithRegex` (a regular expression
anchored at the start: one or more `#`, then anything, then a
backtick-quoted non-empty run of path characters): the line must
start with `#` and contain a backtick-quoted path token afterwards;
since `.*` also matches `#`, one leading `#` suffices, and greediness
selects the last token that completes the pattern. -/
def fileHeaderMatch (line : List Char) : Option (List Char) :=
  match line with
  | [] => none
  | c :: rest => if c = '#' then lastTokenMatch rest else none

/-- Three backticks, opening or closing a fenced block. -/
def tripleBacktick : List Char := [backtick, backtick, backtick]

/-- The lazy capture `([\s\S]*?)` before the closing `\n\x60\x60\x60`:
the characters up to the earliest occurrence of the terminator, or
`none` when there is no terminator. -/
def findUpToTerm : List Char → Option (List Char)
  | [] => none
  | c :: cs =>
      if ('\n' :: tripleBacktick).isPrefixOf (c :: cs) then some []
      else
        match findUpToTerm cs with
        | some r => some (c :: r)
        | none => none

/-- Attempt the code-block pattern
`/\x60\x60\x60(?:[a-zA-Z]+)?\n([\s\S]*?)\n\x60\x60\x60/` at the start
of `cs`: an opening fence, an optional language tag of ASCII letters,
a newline, then the lazy capture up to the closing fence. -/
def tryCodeBlockAt (cs : List Char) : Option (List Char) :=
  if tripleBacktick.isPrefixOf cs then
    let rest := cs.drop 3
    let lang := rest.takeWhile (fun c => c.isAlpha)
    match rest.drop lang.length with
    | '\n' :: body => findUpToTerm body
    | _ => none
  else none

/-- `trimmedSection.match(codeBlockRegex)`: leftmost match of the
code-block pattern, scanning start positions left to right. -/
def findCodeBlock : List Char → Option (List Char)
  | [] => none
  | c :: cs =>
      match tryCodeBlockAt (c :: cs) with
      | some cap => some cap
      | none => findCodeBlock cs

/-- Process one `---`-delimited section (the loop body of
`parseWithRegex`): trim it, skip it when blank, match the header on
its trimmed first line, then take the fenced block's trimmed capture
as content when the capture is non-empty (the source tests the
capture for truthiness, so an empty capture falls through), otherwise
the trimmed text below the header. -/
def sectionToFile (sec : List Char) : Option ParsedFile :=
  let t := trimChars sec
  if t.isEmpty then none
  else
    let firstLine := trimChars (t.takeWhile (fun c => c ≠ '\n'))
    match fileHeaderMatch firstLine with
    | none => none
    | some path =>
        let fallback := trimChars (t.drop firstLine.length)
        let content :=
          match findCodeBlock t with
          | some cap => if cap.isEmpty then fallback else trimChars cap
          | none => fallback
        some { path := String.mk path, content := String.mk content }

/-- The characters `icons/icon`, the fixed part of the manifest icon
pattern. -/
def iconLead : List Char := ['i', 'c', 'o', 'n', 's', '/', 'i', 'c', 'o', 'n']

/-- Attempt the manifest icon pattern `/"(icons\/icon\d+\.png)"/` at
the start of `cs`; on success returns the capture (the path without
the surrounding quotes), which occupies `capture.length + 2`
characters of the input. -/
def tryIconAt (cs : List Char) : Option (List Char) :=
  match cs with
  | '"' :: rest =>
      if iconLead.isPrefixOf rest then
        let afterLead := rest.drop iconLead.length
        let digits := afterLead.takeWhile Char.isDigit
        if digits.isEmpty then none
        else if (['.', 'p', 'n', 'g', '"']).isPrefixOf (afterLead.drop digits.length) then
          some (iconLead ++ digits ++ ['.', 'p', 'n', 'g'])
        else none
      else none
  | _ => none

/-- Fueled embedding of `content.matchAll(/"(icons\/icon\d+\.png)"/g)`:
all non-overlapping matches, scanning left to right. -/
def scanIconPathsF : Nat → List Char → List (List Char)
  | 0, _ => []
  | _ + 1, [] => []
  | fuel + 1, c :: rest =>
      match tryIconAt (c :: rest) with
      | some cap => cap :: scanIconPathsF fuel ((c :: rest).drop (cap.length + 2))
      | none => scanIconPathsF fuel rest

/-- All captures of the manifest icon pattern in `cs`. -/
def scanIconPaths (cs : List Char) : List (List Char) :=
  scanIconPathsF cs.length cs

/-- Deduplication keeping first occurrences, the order `[...new
Set(iconPaths)]` produces. -/
def dedupFirstAux (seen : List String) : List String → List String
  | [] => []
  | x :: xs =>
      if seen.contains x then dedupFirstAux seen xs
      else x :: dedupFirstAux (seen ++ [x]) xs

/-- `[...new Set(iconPaths)]`. -/
def dedupFirst (l : List String) : List String := dedupFirstAux [] l

/-- The stub-appending loop of `parseWithRegex` (lines 72–76): for
each icon path, append a placeholder file with empty content unless a
file with that path is already in the current list. -/
def addIconStubs (files : List ParsedFile) (paths : List String) : List ParsedFile :=
  paths.foldl
    (fun fs p =>
      if fs.any (fun f => f.path == p) then fs
      else fs ++ [{ path := p, content := "" }])
    files

/-- The manifest post-processing of `parseWithRegex` (lines 68–77):
when a file at path `manifest.json` exists, scan its content for icon
references, deduplicate them, and append missing stubs. -/
def manifestStubs (files : List ParsedFile) : List ParsedFile :=
  match files.find? (fun f => f.path == "manifest.json") with
  | none => files
  | some manifestFile =>
      addIconStubs files (dedupFirst ((scanIconPaths manifestFile.content.data).map String.mk))

/-- `parseWithRegex` (projectParser, lines 38–80): split into
sections, convert each matching section into a file, then post-process
the manifest. -/
def parseWithRegex (fileContent : String) : List ParsedFile :=
  manifestStubs ((splitSections fileContent.data).filterMap sectionToFile)

/-! ## Pipeline Orchestrator (`handleProcessInput`, App lines 158–214) -/

/-- The three workflow step kinds. -/
inductive WorkflowStepType where
  | FIND_FILES
  | EXTRACT_DOCS
  | GENERATE_README
deriving DecidableEq

/-- `WorkflowStep` from `types`: one configurable pipeline step. -/
structure WorkflowStep where
  id : String
  type : WorkflowStepType
  name : String
  prompt : String
  enabled : Bool

/-- The AI outcomes available to one executed step: a structured
outcome for the two JSON steps and a free-form outcome for README
generation; a step reads only the component matching its kind. -/
structure StepOracle where
  structured : GenOutcome (Option Json)
  freeform : GenOutcome String

/-- `files.findIndex(f => f.path.toLowerCase() === 'readme.md')`,
returning `none` for -1. -/
def findIndexReadme : List ParsedFile → Option Nat
  | [] => none
  | f :: fs =>
      if f.path.toLower == "readme.md" then some 0
      else (findIndexReadme fs).map (fun i => i + 1)

/-- `files[i].content = c`: replace the content of the file at index
`i`, keeping its path and position. -/
def setContentAt : List ParsedFile → Nat → String → List ParsedFile
  | [], _, _ => []
  | f :: fs, 0, c => { f with content := c } :: fs
  | f :: fs, n + 1, c => f :: setContentAt fs n c

/-- The Orchestrator's README upsert (App lines 192–197): replace the
content of the first file whose lower-cased path is `readme.md`, or
unshift a new `README.md` at the front. -/
def upsertReadme (files : List ParsedFile) (readmeContent : String) : List ParsedFile :=
  match findIndexReadme files with
  | some i => setContentAt files i readmeContent
  | none => { path := "README.md", content := readmeContent } :: files

/-- Dispatch of one enabled step (the `switch` of App lines 183–199). -/
def runStep (pipelineData : PipelineData) (step : WorkflowStep) (oracle : StepOracle) :
    PipelineData :=
  match step.type with
  | .FIND_FILES => findAdditionalFiles pipelineData step.prompt oracle.structured
  | .EXTRACT_DOCS => extractDocumentationNotes pipelineData step.prompt oracle.structured
  | .GENERATE_README =>
      let readmeContent := generateReadme pipelineData step.prompt oracle.freeform
      { pipelineData with files := upsertReadme pipelineData.files readmeContent }

/-- The pipeline state before the workflow loop: raw input recorded,
initial files extracted, notes empty. -/
def initialPipelineData (input : String) : PipelineData :=
  { fullProjectContent := input
    files := parseWithRegex input
    documentationNotes := "" }

/-- The pipeline state after the enabled steps have run in configured
order, each consuming its AI outcome from the oracle. -/
def pipelineAfterSteps (input : String) (steps : List WorkflowStep)
    (oracle : Nat → StepOracle) : PipelineData :=
  ((steps.filter (fun s => s.enabled)).enum).foldl
    (fun pd is => runStep pd is.2 (oracle is.1)) (initialPipelineData input)

/-- The message of the error thrown when no file was produced. -/
def emptyFilesMessage : String :=
  "Impossibile analizzare i file. Verifica il formato dell\x27input."

/-- `handleProcessInput` on text input (App lines 158–214), up to the
terminal outcome: the extracted-and-enriched files and notes on
success, or the thrown error's message (caught by the surrounding
`catch`) when the final file list is empty. -/
def handleProcessInput (input : String) (steps : List WorkflowStep)
    (oracle : Nat → StepOracle) : Except String (List ParsedFile × String) :=
  if (pipelineAfterSteps input steps oracle).files.length = 0 then
    Except.error emptyFilesMessage
  else
    Except.ok ((pipelineAfterSteps input steps oracle).files,
      (pipelineAfterSteps input steps oracle).documentationNotes)

/-! ## Helper lemmas -/

lemma findIndexReadme_eq_none (files : List ParsedFile) :
    findIndexReadme files = none ↔ ∀ f ∈ files, f.path.toLower ≠ "readme.md" := by
  induction files with
  | nil => simp [findIndexReadme]
  | cons f fs ih =>
      by_cases hb : f.path.toLower = "readme.md"
      · simp [findIndexReadme, hb]
      · simp [findIndexReadme, hb, ih, Option.map_eq_none']

lemma findIndexReadme_eq_some (files : List ParsedFile) (i : Nat)
    (h : findIndexReadme files = some i) :
    ∃ pre f post, files = pre ++ f :: post ∧ pre.length = i ∧
      (∀ g ∈ pre, g.path.toLower ≠ "readme.md") ∧ f.path.toLower = "readme.md" := by
  induction files generalizing i with
  | nil => simp [findIndexReadme] at h
  | cons f fs ih =>
      by_cases hb : f.path.toLower = "readme.md"
      · simp only [findIndexReadme, hb] at h
        simp at h
        exact ⟨[], f, fs, rfl, by simp [← h], by simp, hb⟩
      · simp only [findIndexReadme, hb] at h
        simp [hb] at h
        obtain ⟨j, hj, hji⟩ := h
        obtain ⟨pre, g, post, hfs, hlen, hpre, hg⟩ := ih j hj
        refine ⟨f :: pre, g, post, by simp [hfs], by simp [hlen, hji], ?_, hg⟩
        intro x hx
        rcases List.mem_cons.mp hx with hx | hx
        · exact hx ▸ hb
        · exact hpre x hx

lemma setContentAt_append (pre : List ParsedFile) (f : ParsedFile)
    (post : List ParsedFile) (c : String) :
    setContentAt (pre ++ f :: post) pre.length c =
      pre ++ { f with content := c } :: post := by
  induction pre with
  | nil => rfl
  | cons g pre ih => simp [setContentAt, ih]

/-! ## Claims about the step executors -/

/-- C5: with no available credential every step executor degrades
deterministically: Find Additional Files and Extract Documentation
Notes return the input state unchanged, and Generate README returns
the fixed non-empty fallback markdown explaining that no API key was
configured; being total functions, none of them throws. -/
theorem claim_C5_no_credential_degrades (pd : PipelineData) (promptTemplate : String) :
    findAdditionalFiles pd promptTemplate GenOutcome.noClient = pd ∧
    extractDocumentationNotes pd promptTemplate GenOutcome.noClient = pd ∧
    generateReadme pd promptTemplate GenOutcome.noClient = readmeNoKeyFallback ∧
    readmeNoKeyFallback ≠ "" :=
  ⟨rfl, rfl, rfl, by decide⟩

/-- C10: whatever the outcome of its AI interaction (success, missing
credential, malformed response or thrown error), the Extract
Documentation Notes step leaves `fullProjectContent` and `files`
unchanged; only `documentationNotes` can change. -/
theorem claim_C10_extract_docs_frame (pd : PipelineData) (promptTemplate : String)
    (outcome : GenOutcome (Option Json)) :
    (extractDocumentationNotes pd promptTemplate outcome).fullProjectContent =
        pd.fullProjectContent ∧
    (extractDocumentationNotes pd promptTemplate outcome).files = pd.files := by
  cases outcome with
  | noClient => exact ⟨rfl, rfl⟩
  | threw msg => exact ⟨rfl, rfl⟩
  | replied aiResult =>
      cases aiResult with
      | none => exact ⟨rfl, rfl⟩
      | some j =>
          cases hj : jsonField j "documentationNotes" with
          | none => simp [extractDocumentationNotes, hj]
          | some v => cases v <;> simp [extractDocumentationNotes, hj]

/-- C1 counterexample: when the AI response is malformed JSON
(`safeJsonParse` returns null), the step leaves the notes exactly as
they were — no fallback diagnostic is appended, contradicting the
claim that every failure mode appends one. -/
theorem claim_C1_counterexample :
    extractDocumentationNotes
        { fullProjectContent := "", files := [], documentationNotes := "prior notes" }
        "template" (GenOutcome.replied none) =
      { fullProjectContent := "", files := [], documentationNotes := "prior notes" } := by
  decide

/-- C1 amended: only a thrown network/service error appends the
clearly marked fallback diagnostic (preserving non-empty prior notes);
a malformed-JSON response or a parsed response without a string
`documentationNotes` field leaves the state, notes included,
unchanged. -/
theorem claim_C1_amended_fallback_only_on_throw (pd : PipelineData) (tmpl msg : String) :
    (extractDocumentationNotes pd tmpl (GenOutcome.threw msg)).documentationNotes =
      (if pd.documentationNotes = "" then docFallbackNote msg
       else pd.documentationNotes ++ "\n" ++ docFallbackNote msg) ∧
    extractDocumentationNotes pd tmpl (GenOutcome.replied none) = pd ∧
    (∀ j : Json, (∀ s, jsonField j "documentationNotes" ≠ some (Json.str s)) →
      extractDocumentationNotes pd tmpl (GenOutcome.replied (some j)) = pd) := by
  refine ⟨?_, rfl, ?_⟩
  · unfold extractDocumentationNotes
    by_cases h : pd.documentationNotes = ""
    · simp [h]
    · simp [h]
  · intro j hj
    cases hf : jsonField j "documentationNotes" with
    | none => simp [extractDocumentationNotes, hf]
    | some v =>
        cases v with
        | str s => exact absurd hf (hj s)
        | null => simp [extractDocumentationNotes, hf]
        | bool b => simp [extractDocumentationNotes, hf]
        | num n => simp [extractDocumentationNotes, hf]
        | arr l => simp [extractDocumentationNotes, hf]
        | obj l => simp [extractDocumentationNotes, hf]

/-- C1 amended, witness: the three cases evaluated at a concrete
state with prior notes `"prior"`. -/
theorem claim_C1_amended_witness :
    ((extractDocumentationNotes
        { fullProjectContent := "", files := [], documentationNotes := "prior" }
        "t" (GenOutcome.threw "boom")).documentationNotes =
      (if ({ fullProjectContent := "", files := [], documentationNotes := "prior" } :
            PipelineData).documentationNotes = "" then docFallbackNote "boom"
       else ({ fullProjectContent := "", files := [], documentationNotes := "prior" } :
            PipelineData).documentationNotes ++ "\n" ++ docFallbackNote "boom")) ∧
    extractDocumentationNotes
        { fullProjectContent := "", files := [], documentationNotes := "prior" }
        "t" (GenOutcome.replied none) =
      { fullProjectContent := "", files := [], documentationNotes := "prior" } ∧
    extractDocumentationNotes
        { fullProjectContent := "", files := [], documentationNotes := "prior" }
        "t" (GenOutcome.replied (some (Json.num 3))) =
      { fullProjectContent := "", files := [], documentationNotes := "prior" } :=
  ⟨(claim_C1_amended_fallback_only_on_throw _ "t" "boom").1,
   (claim_C1_amended_fallback_only_on_throw _ "t" "boom").2.1,
   (claim_C1_amended_fallback_only_on_throw _ "t" "boom").2.2 (Json.num 3)
     (fun s h => by simp [jsonField] at h)⟩

/-- C3: the Orchestrator upsert after Generate README: either no file
path lower-cases to `readme.md` and the new `README.md` is inserted at
the front, or the first such file keeps its path and position and only
its content is replaced — no second README entry appears. -/
theorem claim_C3_readme_upsert (files : List ParsedFile) (readmeContent : String) :
    ((∀ f ∈ files, f.path.toLower ≠ "readme.md") ∧
      upsertReadme files readmeContent =
        { path := "README.md", content := readmeContent } :: files) ∨
    (∃ pre f post,
      files = pre ++ f :: post ∧
      (∀ g ∈ pre, g.path.toLower ≠ "readme.md") ∧
      f.path.toLower = "readme.md" ∧
      upsertReadme files readmeContent =
        pre ++ { f with content := readmeContent } :: post) := by
  cases h : findIndexReadme files with
  | none =>
      left
      exact ⟨(findIndexReadme_eq_none files).mp h, by unfold upsertReadme; rw [h]⟩
  | some i =>
      right
      obtain ⟨pre, f, post, hfiles, hlen, hpre, hf⟩ := findIndexReadme_eq_some files i h
      refine ⟨pre, f, post, hfiles, hpre, hf, ?_⟩
      unfold upsertReadme
      rw [h, hfiles, ← hlen]
      exact setContentAt_append pre f post readmeContent

/-- C3 witness: the upsert evaluated on a collection holding a
lower-case `readme.md`, as in the specification's test sentence. -/
theorem claim_C3_witness :
    ((∀ f ∈ [({ path := "readme.md", content := "old" } : ParsedFile)],
        f.path.toLower ≠ "readme.md") ∧
      upsertReadme [{ path := "readme.md", content := "old" }] "new" =
        { path := "README.md", content := "new" } ::
          [{ path := "readme.md", content := "old" }]) ∨
    (∃ pre f post,
      [({ path := "readme.md", content := "old" } : ParsedFile)] = pre ++ f :: post ∧
      (∀ g ∈ pre, g.path.toLower ≠ "readme.md") ∧
      f.path.toLower = "readme.md" ∧
      upsertReadme [{ path := "readme.md", content := "old" }] "new" =
        pre ++ { f with content := "new" } :: post) :=
  claim_C3_readme_upsert [{ path := "readme.md", content := "old" }] "new"

lemma addCandidate_spec (acc : List ParsedFile × List String) (x : Json)
    (h : acc.2 = acc.1.map (fun f => f.path)) :
    (addCandidate acc x).2 = (addCandidate acc x).1.map (fun f => f.path) ∧
    (∃ t, (addCandidate acc x).1 = acc.1 ++ t) ∧
    (acc.2.Nodup → (addCandidate acc x).2.Nodup) := by
  unfold addCandidate
  split
  · rename_i p c hpath hcontent
    split
    · exact ⟨h, ⟨[], by simp⟩, fun hn => hn⟩
    · rename_i hc
      have hpmem : p ∉ acc.2 := by
        intro hm
        exact hc (List.elem_eq_true_of_mem hm)
      refine ⟨by simp [h], ⟨[{ path := p, content := c }], rfl⟩, fun hn => ?_⟩
      simp [List.nodup_append, hn, hpmem]
  · exact ⟨h, ⟨[], by simp⟩, fun hn => hn⟩

lemma foldl_addCandidate_invariant (items : List Json) :
    ∀ acc : List ParsedFile × List String, acc.2 = acc.1.map (fun f => f.path) →
      ((items.foldl addCandidate acc).2 =
        (items.foldl addCandidate acc).1.map (fun f => f.path)) ∧
      (∃ t, (items.foldl addCandidate acc).1 = acc.1 ++ t) ∧
      (acc.2.Nodup → (items.foldl addCandidate acc).2.Nodup) := by
  induction items with
  | nil => exact fun acc h => ⟨h, ⟨[], by simp⟩, fun hn => hn⟩
  | cons x items ih =>
      intro acc h
      obtain ⟨h1, ⟨t0, ht0⟩, h3⟩ := addCandidate_spec acc x h
      obtain ⟨ih1, ⟨t1, ht1⟩, ih3⟩ := ih (addCandidate acc x) h1
      refine ⟨by simpa using ih1, ⟨t0 ++ t1, ?_⟩, fun hn => ih3 (h3 hn)⟩
      simp only [List.foldl_cons]
      rw [ht1, ht0, List.append_assoc]

/-- C2: the Find Additional Files step only ever appends candidates
whose path is not already present — checking both the original paths
and those added earlier in the same batch — so when the input file
collection has pairwise-distinct paths, so does the output. -/
theorem claim_C2_find_files_path_uniqueness (pd : PipelineData) (tmpl : String)
    (outcome : GenOutcome (Option Json))
    (h : (pd.files.map (fun f => f.path)).Nodup) :
    (∃ t, (findAdditionalFiles pd tmpl outcome).files = pd.files ++ t) ∧
    ((findAdditionalFiles pd tmpl outcome).files.map (fun f => f.path)).Nodup := by
  have key : ∀ items : List Json,
      (∃ t, (items.foldl addCandidate
          (pd.files, pd.files.map (fun f => f.path))).1 = pd.files ++ t) ∧
      ((items.foldl addCandidate
          (pd.files, pd.files.map (fun f => f.path))).1.map (fun f => f.path)).Nodup := by
    intro items
    obtain ⟨h1, h2, h3⟩ :=
      foldl_addCandidate_invariant items (pd.files, pd.files.map (fun f => f.path)) rfl
    exact ⟨h2, h1 ▸ h3 h⟩
  cases outcome with
  | noClient => exact ⟨⟨[], by simp [findAdditionalFiles]⟩, h⟩
  | threw m => exact ⟨⟨[], by simp [findAdditionalFiles]⟩, h⟩
  | replied aiResult =>
      cases aiResult with
      | none =>
          obtain ⟨he, hn⟩ := key []
          exact ⟨he, hn⟩
      | some j =>
          cases hf : jsonField j "additionalFiles" with
          | none =>
              obtain ⟨he, hn⟩ := key []
              constructor
              · simpa [findAdditionalFiles, hf] using he
              · simpa [findAdditionalFiles, hf] using hn
          | some v =>
              cases v with
              | arr items =>
                  obtain ⟨he, hn⟩ := key items
                  constructor
                  · simpa [findAdditionalFiles, hf] using he
                  · simpa [findAdditionalFiles, hf] using hn
              | null => exact ⟨⟨[], by simp [findAdditionalFiles, hf]⟩, by simpa [findAdditionalFiles, hf] using h⟩
              | bool b => exact ⟨⟨[], by simp [findAdditionalFiles, hf]⟩, by simpa [findAdditionalFiles, hf] using h⟩
              | num n => exact ⟨⟨[], by simp [findAdditionalFiles, hf]⟩, by simpa [findAdditionalFiles, hf] using h⟩
              | str s => exact ⟨⟨[], by simp [findAdditionalFiles, hf]⟩, by simpa [findAdditionalFiles, hf] using h⟩
              | obj l => exact ⟨⟨[], by simp [findAdditionalFiles, hf]⟩, by simpa [findAdditionalFiles, hf] using h⟩

/-- C2 witness: a batch containing a duplicate of an existing path and
an internal duplicate, evaluated at a concrete state. -/
theorem claim_C2_witness :
    (∃ t, (findAdditionalFiles
        { fullProjectContent := "", files := [{ path := "a", content := "x" }],
          documentationNotes := "" } "t"
        (GenOutcome.replied (some (Json.obj [("additionalFiles", Json.arr
          [Json.obj [("path", Json.str "a"), ("content", Json.str "y")],
           Json.obj [("path", Json.str "b"), ("content", Json.str "z")],
           Json.obj [("path", Json.str "b"), ("content", Json.str "w")]])])))).files =
      [{ path := "a", content := "x" }] ++ t) ∧
    ((findAdditionalFiles
        { fullProjectContent := "", files := [{ path := "a", content := "x" }],
          documentationNotes := "" } "t"
        (GenOutcome.replied (some (Json.obj [("additionalFiles", Json.arr
          [Json.obj [("path", Json.str "a"), ("content", Json.str "y")],
           Json.obj [("path", Json.str "b"), ("content", Json.str "z")],
           Json.obj [("path", Json.str "b"), ("content", Json.str "w")]])])))).files.map
      (fun f => f.path)).Nodup :=
  claim_C2_find_files_path_uniqueness _ "t" _ (by decide)

/-! ## Claims about the Orchestrator -/

/-- A trivial oracle (no credential at every step), used to
instantiate the orchestrator theorems on concrete runs. -/
def noClientOracle : Nat → StepOracle :=
  fun _ => { structured := GenOutcome.noClient, freeform := GenOutcome.noClient }

/-- C4: a run whose final file collection is empty terminates as the
explicit failure carrying the human-readable message, and no run ever
succeeds with an empty file list. -/
theorem claim_C4_fatal_on_empty (input : String) (steps : List WorkflowStep)
    (oracle : Nat → StepOracle) :
    ((pipelineAfterSteps input steps oracle).files = [] →
      handleProcessInput input steps oracle = Except.error emptyFilesMessage) ∧
    (∀ files notes,
      handleProcessInput input steps oracle = Except.ok (files, notes) → files ≠ []) := by
  constructor
  · intro h
    unfold handleProcessInput
    rw [if_pos (by rw [h]; rfl)]
  · intro files notes hok hne
    unfold handleProcessInput at hok
    by_cases hl : (pipelineAfterSteps input steps oracle).files.length = 0
    · rw [if_pos hl] at hok
      exact Except.noConfusion hok
    · rw [if_neg hl] at hok
      apply hl
      have hfe : (pipelineAfterSteps input steps oracle).files = files := by
        have := congrArg (fun e => match e with
          | Except.ok (p : List ParsedFile × String) => p.1
          | Except.error _ => []) hok
        simpa using this
      rw [hfe, hne]
      rfl

/-- C4 witness: plain prose with no header sections extracts no file,
and the run fails with the message. -/
theorem claim_C4_witness :
    (pipelineAfterSteps "plain prose with no headers" [] noClientOracle).files = [] ∧
    handleProcessInput "plain prose with no headers" [] noClientOracle =
      Except.error emptyFilesMessage :=
  ⟨by decide,
   (claim_C4_fatal_on_empty "plain prose with no headers" [] noClientOracle).1 (by decide)⟩

/-- C9: the end-to-end example: two header+fence sections separated by
a delimiter line, run with no enabled AI step, yield exactly the two
files in order and empty notes. -/
theorem claim_C9_end_to_end (steps : List WorkflowStep) (oracle : Nat → StepOracle)
    (h : ∀ s ∈ steps, s.enabled = false) :
    handleProcessInput "### `a.txt`\n```\nhello\n```\n---\n### `b.txt`\n```\nworld\n```"
        steps oracle =
      Except.ok ([{ path := "a.txt", content := "hello" },
                  { path := "b.txt", content := "world" }], "") := by
  have hfilter : steps.filter (fun s => s.enabled) = [] := by
    rw [List.filter_eq_nil_iff]
    intro a ha
    simp [h a ha]
  have hpd : pipelineAfterSteps
      "### `a.txt`\n```\nhello\n```\n---\n### `b.txt`\n```\nworld\n```" steps oracle =
      initialPipelineData
        "### `a.txt`\n```\nhello\n```\n---\n### `b.txt`\n```\nworld\n```" := by
    unfold pipelineAfterSteps
    rw [hfilter]
    rfl
  unfold handleProcessInput
  rw [hpd]
  rfl

/-- C9 witness: the example run with the empty step list. -/
theorem claim_C9_witness :
    handleProcessInput "### `a.txt`\n```\nhello\n```\n---\n### `b.txt`\n```\nworld\n```"
        [] noClientOracle =
      Except.ok ([{ path := "a.txt", content := "hello" },
                  { path := "b.txt", content := "world" }], "") :=
  claim_C9_end_to_end [] noClientOracle (fun s hs => absurd hs (List.not_mem_nil s))

/-! ## Claims about the section splitting (Extractor) -/

/-- `true` when the section delimiter occurs somewhere in `cs`. -/
def hasSep : List Char → Bool
  | [] => false
  | c :: cs => sepL.isPrefixOf (c :: cs) || hasSep cs

/-- Join pieces back with a separator (inverse of splitting). -/
def joinSep (sep : List Char) : List (List Char) → List Char
  | [] => []
  | [s] => s
  | s :: ss => s ++ sep ++ joinSep sep ss

/-- Split a character list at every newline. -/
def splitOnNewline : List Char → List (List Char)
  | [] => [[]]
  | c :: cs =>
      if c = '\n' then [] :: splitOnNewline cs
      else
        match splitOnNewline cs with
        | [] => [[c]]
        | l :: ls => (c :: l) :: ls

/-- Group lines, starting a new group at every line consisting solely
of three hyphens (the delimiter lines themselves are dropped). -/
def groupsAtHyphenLines : List (List Char) → List (List (List Char))
  | [] => [[]]
  | l :: ls =>
      if l = ['-', '-', '-'] then [] :: groupsAtHyphenLines ls
      else
        match groupsAtHyphenLines ls with
        | [] => [[l]]
        | g :: gs => (l :: g) :: gs

/-- Modelled from the spec for comparison: split the raw text into
sections exactly at each line consisting solely of three hyphens,
wherever that line occurs (including at the very start or very end of
the text). -/
def specSections (cs : List Char) : List (List Char) :=
  (groupsAtHyphenLines (splitOnNewline cs)).map (joinSep ['\n'])

lemma isPrefixOf_iff_append (xs ys : List Char) :
    xs.isPrefixOf ys = true ↔ ∃ t, ys = xs ++ t := by
  induction xs generalizing ys with
  | nil => simp [List.isPrefixOf]
  | cons x xs ih =>
      cases ys with
      | nil => simp [List.isPrefixOf]
      | cons y ys =>
          simp only [List.isPrefixOf, Bool.and_eq_true, beq_iff_eq, ih, List.cons_append]
          constructor
          · rintro ⟨rfl, t, rfl⟩
            exact ⟨t, rfl⟩
          · rintro ⟨t, ht⟩
            injection ht with h1 h2
            exact ⟨h1.symm, t, h2⟩

lemma takeToSep_eq (cs : List Char) :
    ((takeToSep cs).2 = none ∧ (takeToSep cs).1 = cs) ∨
    (∃ rest, (takeToSep cs).2 = some rest ∧ cs = (takeToSep cs).1 ++ sepL ++ rest) := by
  induction cs with
  | nil => left; exact ⟨rfl, rfl⟩
  | cons c cs ih =>
      by_cases hp : sepL.isPrefixOf (c :: cs) = true
      · right
        obtain ⟨t, ht⟩ := (isPrefixOf_iff_append sepL (c :: cs)).mp hp
        have hdrop : (c :: cs).drop 5 = t := by
          rw [ht, show (5 : Nat) = sepL.length from rfl, List.drop_left]
        refine ⟨(c :: cs).drop 5, by simp [takeToSep, hp], ?_⟩
        simp only [takeToSep, hp, if_pos]
        rw [hdrop, List.nil_append]
        exact ht
      · rcases ih with ⟨h2, h1⟩ | ⟨rest, h2, heq⟩
        · left
          constructor <;> simp [takeToSep, hp, h2, h1]
        · right
          refine ⟨rest, by simp [takeToSep, hp, h2], ?_⟩
          have hfst : (takeToSep (c :: cs)).1 = c :: (takeToSep cs).1 := by
            simp [takeToSep, hp]
          rw [hfst]
          simp only [List.cons_append]
          exact congrArg (List.cons c) heq

lemma hasSep_takeToSep_fst (cs : List Char) : hasSep (takeToSep cs).1 = false := by
  induction cs with
  | nil => rfl
  | cons c cs ih =>
      by_cases hp : sepL.isPrefixOf (c :: cs) = true
      · have hfst : (takeToSep (c :: cs)).1 = [] := by
          simp only [takeToSep]
          rw [if_pos hp]
        rw [hfst]
        rfl
      · have hfst : (takeToSep (c :: cs)).1 = c :: (takeToSep cs).1 := by
          simp [takeToSep, hp]
        rw [hfst]
        simp only [hasSep, Bool.or_eq_false_iff]
        refine ⟨?_, ih⟩
        by_contra h'
        rw [Bool.not_eq_false] at h'
        obtain ⟨t, ht⟩ := (isPrefixOf_iff_append _ _).mp h'
        rcases takeToSep_eq cs with ⟨-, h1⟩ | ⟨rest, -, heq⟩
        · exact hp (by rw [← h1]; exact h')
        · apply hp
          rw [isPrefixOf_iff_append]
          refine ⟨t ++ sepL ++ rest, ?_⟩
          have : c :: cs = (c :: (takeToSep cs).1) ++ sepL ++ rest := by
            simp only [List.cons_append]
            exact congrArg (List.cons c) heq
          rw [this, ht]
          simp

lemma splitSectionsF_ne_nil (fuel : Nat) (cs : List Char) :
    splitSectionsF fuel cs ≠ [] := by
  cases fuel with
  | zero => simp [splitSectionsF]
  | succ f =>
      simp only [splitSectionsF]
      rcases takeToSep cs with ⟨p, r⟩
      cases r <;> simp

lemma joinSep_cons (sep s : List Char) (ss : List (List Char)) (h : ss ≠ []) :
    joinSep sep (s :: ss) = s ++ sep ++ joinSep sep ss := by
  cases ss with
  | nil => exact absurd rfl h
  | cons a as => rfl

lemma joinSep_splitSectionsF (fuel : Nat) :
    ∀ cs : List Char, joinSep sepL (splitSectionsF fuel cs) = cs := by
  induction fuel with
  | zero => intro cs; rfl
  | succ fuel ih =>
      intro cs
      simp only [splitSectionsF]
      rcases hts : takeToSep cs with ⟨p, r⟩
      cases r with
      | none =>
          rcases takeToSep_eq cs with ⟨-, h1⟩ | ⟨rest, h2, -⟩
          · rw [hts] at h1
            simpa [joinSep] using h1
          · rw [hts] at h2
            exact absurd h2 (by simp)
      | some rest =>
          rw [joinSep_cons _ _ _ (splitSectionsF_ne_nil fuel rest), ih]
          rcases takeToSep_eq cs with ⟨h2, -⟩ | ⟨rest', h2, heq⟩
          · rw [hts] at h2
            exact absurd h2 (by simp)
          · rw [hts] at h2 heq
            simp only [Option.some.injEq] at h2
            rw [← h2] at heq
            exact heq.symm

lemma splitSectionsF_no_sep (fuel : Nat) :
    ∀ cs : List Char, cs.length ≤ fuel →
      ∀ s ∈ splitSectionsF fuel cs, hasSep s = false := by
  induction fuel with
  | zero =>
      intro cs hle s hs
      have hcs : cs = [] := List.length_eq_zero.mp (Nat.le_zero.mp hle)
      subst hcs
      simp [splitSectionsF] at hs
      subst hs
      rfl
  | succ fuel ih =>
      intro cs hle s hs
      simp only [splitSectionsF] at hs
      rcases hts : takeToSep cs with ⟨p, r⟩
      rw [hts] at hs
      cases r with
      | none =>
          simp at hs
          subst hs
          have := hasSep_takeToSep_fst cs
          rwa [hts] at this
      | some rest =>
          rcases List.mem_cons.mp hs with rfl | hs'
          · have := hasSep_takeToSep_fst cs
            rwa [hts] at this
          · refine ih rest ?_ s hs'
            rcases takeToSep_eq cs with ⟨h2, -⟩ | ⟨rest', h2, heq⟩
            · rw [hts] at h2
              exact absurd h2 (by simp)
            · rw [hts] at h2 heq
              simp only [Option.some.injEq] at h2
              subst h2
              dsimp only at heq
              have hlen2 : cs.length = p.length + 5 + rest.length := by
                rw [heq]
                simp only [List.length_append, sepL, List.length_cons, List.length_nil]
              omega

/-- C6 counterexample: the source splits on the five-character
sequence newline-`---`-newline, so a `---` line at the very start of
the text does not separate sections, while the claim's line-based
splitting does. -/
theorem claim_C6_counterexample :
    splitSections "---\na".data ≠ specSections "---\na".data ∧
    splitSections "---\na".data = ["---\na".data] ∧
    specSections "---\na".data = ["".data, "a".data] := by
  refine ⟨by decide, by decide, by decide⟩

/-- C6 amended: the Extractor splits the raw text at the
non-overlapping occurrences, scanned left to right, of the
newline-`---`-newline delimiter; every such occurrence separates two
different sections — joining the sections back with the delimiter
restores the text and no section retains a delimiter occurrence — but
a `---` line at the very start or very end of the text (which lacks a
surrounding newline) does not split. -/
theorem claim_C6_amended_split (t : String) :
    joinSep sepL (splitSections t.data) = t.data ∧
    ∀ s ∈ splitSections t.data, hasSep s = false :=
  ⟨joinSep_splitSectionsF t.data.length t.data,
   splitSectionsF_no_sep t.data.length t.data (Nat.le_refl _)⟩

/-- C6 amended, witness: the reconstruction and no-delimiter
properties evaluated on a two-section text. -/
theorem claim_C6_amended_witness :
    joinSep sepL (splitSections "a\n---\nb".data) = "a\n---\nb".data ∧
    ∀ s ∈ splitSections "a\n---\nb".data, hasSep s = false :=
  claim_C6_amended_split "a\n---\nb"

/-! ## Claims about the manifest post-processing -/

lemma dedupFirstAux_mem (l : List String) :
    ∀ (seen : List String) (x : String),
      x ∈ dedupFirstAux seen l ↔ x ∈ l ∧ x ∉ seen := by
  induction l with
  | nil => intro seen x; simp [dedupFirstAux]
  | cons a l ih =>
      intro seen x
      cases hb : seen.contains a with
      | true =>
          have ham : a ∈ seen := List.mem_of_elem_eq_true hb
          rw [show dedupFirstAux seen (a :: l) = dedupFirstAux seen l from by
            simp only [dedupFirstAux]; rw [hb]; simp]
          rw [ih seen x]
          constructor
          · rintro ⟨h1, h2⟩
            exact ⟨List.mem_cons_of_mem a h1, h2⟩
          · rintro ⟨h1, h2⟩
            rcases List.mem_cons.mp h1 with rfl | h1'
            · exact absurd ham h2
            · exact ⟨h1', h2⟩
      | false =>
          have hna : a ∉ seen := fun hm => by
            have hc : seen.contains a = true := List.elem_eq_true_of_mem hm
            rw [hc] at hb
            exact Bool.noConfusion hb
          rw [show dedupFirstAux seen (a :: l) = a :: dedupFirstAux (seen ++ [a]) l from by
            simp only [dedupFirstAux]; rw [hb]; simp]
          rw [List.mem_cons, ih (seen ++ [a]) x]
          constructor
          · rintro (rfl | ⟨h1, h2⟩)
            · exact ⟨List.mem_cons_self x l, hna⟩
            · refine ⟨List.mem_cons_of_mem a h1, fun hm => h2 ?_⟩
              exact List.mem_append_left _ hm
          · rintro ⟨h1, h2⟩
            rcases List.mem_cons.mp h1 with rfl | h1'
            · exact Or.inl rfl
            · by_cases hxa : x = a
              · exact Or.inl hxa
              · refine Or.inr ⟨h1', fun hm => ?_⟩
                rcases List.mem_append.mp hm with hm' | hm'
                · exact h2 hm'
                · exact hxa (List.mem_singleton.mp hm')

lemma dedupFirstAux_nodup (l : List String) :
    ∀ seen : List String, (dedupFirstAux seen l).Nodup := by
  induction l with
  | nil => intro seen; simp [dedupFirstAux]
  | cons a l ih =>
      intro seen
      cases hb : seen.contains a with
      | true =>
          rw [show dedupFirstAux seen (a :: l) = dedupFirstAux seen l from by
            simp only [dedupFirstAux]; rw [hb]; simp]
          exact ih seen
      | false =>
          rw [show dedupFirstAux seen (a :: l) = a :: dedupFirstAux (seen ++ [a]) l from by
            simp only [dedupFirstAux]; rw [hb]; simp]
          rw [List.nodup_cons]
          refine ⟨fun hmem => ?_, ih _⟩
          rw [dedupFirstAux_mem] at hmem
          exact hmem.2 (by simp)

lemma dedupFirst_mem (l : List String) (x : String) : x ∈ dedupFirst l ↔ x ∈ l := by
  unfold dedupFirst
  rw [dedupFirstAux_mem]
  simp

lemma dedupFirst_nodup (l : List String) : (dedupFirst l).Nodup :=
  dedupFirstAux_nodup l []

lemma addIconStubs_eq (paths : List String) :
    ∀ files : List ParsedFile, paths.Nodup →
      addIconStubs files paths =
        files ++ (paths.filter (fun p => !files.any (fun f => f.path == p))).map
          (fun p => { path := p, content := "" }) := by
  induction paths with
  | nil => intro files _; simp [addIconStubs]
  | cons p ps ih =>
      intro files hnd
      rw [List.nodup_cons] at hnd
      obtain ⟨hp, hnd'⟩ := hnd
      cases hb : files.any (fun f => f.path == p) with
      | true =>
          have hstep : addIconStubs files (p :: ps) = addIconStubs files ps := by
            simp only [addIconStubs, List.foldl_cons]; rw [hb]; simp
          rw [hstep, ih files hnd']
          congr 1
          simp [List.filter_cons, hb]
      | false =>
          have hstep : addIconStubs files (p :: ps) =
              addIconStubs (files ++ [{ path := p, content := "" }]) ps := by
            simp only [addIconStubs, List.foldl_cons]; rw [hb]; simp
          rw [hstep, ih _ hnd']
          have hfilter :
              ps.filter (fun q =>
                !(files ++ [({ path := p, content := "" } : ParsedFile)]).any
                  (fun f => f.path == q)) =
              ps.filter (fun q => !files.any (fun f => f.path == q)) := by
            apply List.filter_congr
            intro q hq
            have hpq : (p == q) = false := by
              rw [beq_eq_false_iff_ne]
              exact fun h => hp (h ▸ hq)
            simp [List.any_append, List.any_cons, hpq]
          rw [hfilter]
          simp [List.filter_cons, hb, List.append_assoc]

/-- C7: when a `manifest.json` file is among the extracted files, the
post-processing appends exactly one empty-content placeholder for
every scanned icon reference whose path is not already present —
duplicated references produce no duplicate stubs. -/
theorem claim_C7_manifest_stubs (files : List ParsedFile) (manifestFile : ParsedFile)
    (h : files.find? (fun f => f.path == "manifest.json") = some manifestFile) :
    ∃ stubs,
      manifestStubs files = files ++ stubs ∧
      (∀ s ∈ stubs, s.content = "" ∧
        s.path ∈ (scanIconPaths manifestFile.content.data).map String.mk ∧
        ∀ f ∈ files, f.path ≠ s.path) ∧
      (stubs.map (fun s => s.path)).Nodup ∧
      (∀ p ∈ (scanIconPaths manifestFile.content.data).map String.mk,
        (∀ f ∈ files, f.path ≠ p) → p ∈ stubs.map (fun s => s.path)) := by
  refine ⟨((dedupFirst ((scanIconPaths manifestFile.content.data).map String.mk)).filter
      (fun p => !files.any (fun f => f.path == p))).map
      (fun p => { path := p, content := "" }), ?_, ?_, ?_, ?_⟩
  · unfold manifestStubs
    rw [h]
    exact addIconStubs_eq _ files (dedupFirst_nodup _)
  · intro s hs
    rw [List.mem_map] at hs
    obtain ⟨p, hpmem, rfl⟩ := hs
    rw [List.mem_filter] at hpmem
    obtain ⟨hpuniq, hpok⟩ := hpmem
    refine ⟨rfl, (dedupFirst_mem _ _).mp hpuniq, ?_⟩
    intro f hf hcon
    rw [Bool.not_eq_eq_eq_not, Bool.not_true, List.any_eq_false] at hpok
    exact hpok f hf (by simp [hcon])
  · rw [List.map_map]
    have hid : ((fun s : ParsedFile => s.path) ∘
        (fun p : String => ({ path := p, content := "" } : ParsedFile))) = id := rfl
    rw [hid, List.map_id]
    exact List.Nodup.filter _ (dedupFirst_nodup _)
  · intro p hpicon hpnot
    rw [List.map_map]
    have hid : ((fun s : ParsedFile => s.path) ∘
        (fun p : String => ({ path := p, content := "" } : ParsedFile))) = id := rfl
    rw [hid, List.map_id, List.mem_filter]
    refine ⟨(dedupFirst_mem _ _).mpr hpicon, ?_⟩
    rw [Bool.not_eq_eq_eq_not, Bool.not_true, List.any_eq_false]
    intro f hf
    simp [hpnot f hf]

/-- A manifest whose content references `icons/icon1.png` twice and
`icons/icon2.png` once, used to instantiate the C7 theorem. -/
def sampleManifest : ParsedFile :=
  { path := "manifest.json",
    content := "see \"icons/icon1.png\" and \"icons/icon2.png\" and \"icons/icon1.png\"" }

/-- C7 witness: the stub rule evaluated on the sample manifest. -/
theorem claim_C7_witness :
    [sampleManifest].find? (fun f => f.path == "manifest.json") = some sampleManifest ∧
    (∃ stubs,
      manifestStubs [sampleManifest] = [sampleManifest] ++ stubs ∧
      (∀ s ∈ stubs, s.content = "" ∧
        s.path ∈ (scanIconPaths sampleManifest.content.data).map String.mk ∧
        ∀ f ∈ [sampleManifest], f.path ≠ s.path) ∧
      (stubs.map (fun s => s.path)).Nodup ∧
      (∀ p ∈ (scanIconPaths sampleManifest.content.data).map String.mk,
        (∀ f ∈ [sampleManifest], f.path ≠ p) → p ∈ stubs.map (fun s => s.path))) :=
  ⟨by decide, claim_C7_manifest_stubs [sampleManifest] sampleManifest (by decide)⟩

/-! ## Claims about the prompt substitution -/

/-- Occurrence test: `true` when `pat` occurs as a contiguous
subsequence of `s`. -/
def occursIn (pat : List Char) : List Char → Bool
  | [] => pat.isPrefixOf []
  | c :: cs => pat.isPrefixOf (c :: cs) || occursIn pat cs

/-- `true` when the pattern has a non-trivial border (a proper
non-empty prefix that is also a suffix); a borderless pattern cannot
match across the boundary of its own planted occurrence. -/
def selfOverlap (pat : List Char) : Bool :=
  (List.range pat.length).any
    (fun b => (b != 0) && (pat.take b == pat.drop (pat.length - b)))

/-- The `ORIGINAL_CONTENT_PLACEHOLDER` token. -/
def origToken : List Char := "ORIGINAL_CONTENT_PLACEHOLDER".data

/-- The `PARSED_FILES_PLACEHOLDER` token. -/
def parsedToken : List Char := "PARSED_FILES_PLACEHOLDER".data

lemma occursIn_drop (pat A : List Char) (k : Nat)
    (h : occursIn pat (A.drop k) = true) : occursIn pat A = true := by
  induction A generalizing k with
  | nil => simpa using h
  | cons x A' ih =>
      cases k with
      | zero => simpa using h
      | succ k' =>
          rw [List.drop_succ_cons] at h
          simp [occursIn, ih k' h]

lemma prefix_append_cross (pat A rest : List Char) (hA : A ≠ [])
    (h : pat.isPrefixOf (A ++ (pat ++ rest)) = true) :
    occursIn pat A = true ∨ selfOverlap pat = true := by
  obtain ⟨t, ht⟩ := (isPrefixOf_iff_append _ _).mp h
  by_cases hle : pat.length ≤ A.length
  · left
    have htake := congrArg (List.take pat.length) ht
    simp only [List.take_append_eq_append_take, Nat.sub_eq_zero_of_le hle, Nat.sub_self,
      Nat.zero_sub, List.take_zero, List.append_nil, List.nil_append,
      List.take_length] at htake
    have hpre : pat.isPrefixOf A = true := by
      rw [isPrefixOf_iff_append]
      refine ⟨A.drop pat.length, ?_⟩
      conv_lhs => rw [← List.take_append_drop pat.length A]
      rw [htake]
    cases A with
    | nil => exact absurd rfl hA
    | cons x A' => simp [occursIn, hpre]
  · right
    push_neg at hle
    have hAlen : 0 < A.length := List.length_pos.mpr hA
    have hb1 : 0 < pat.length - A.length := by omega
    have hb2 : pat.length - A.length < pat.length := by omega
    have hdropEq := congrArg (List.drop A.length) ht
    simp only [List.drop_append_eq_append_drop, Nat.sub_self,
      Nat.sub_eq_zero_of_le (Nat.le_of_lt hle), List.drop_length, List.nil_append,
      List.drop_zero] at hdropEq
    have hlenDrop : (pat.drop A.length).length = pat.length - A.length :=
      List.length_drop _ _
    have htakeFull :
        (pat.drop A.length).take (pat.length - A.length) = pat.drop A.length := by
      rw [← hlenDrop, List.take_length]
    have hsub3 : pat.length - A.length - pat.length = 0 := by omega
    have hsub4 : pat.length - A.length - (pat.drop A.length).length = 0 := by
      rw [hlenDrop]; omega
    have htakeb := congrArg (List.take (pat.length - A.length)) hdropEq
    simp only [List.take_append_eq_append_take, hsub3, hsub4, List.take_zero,
      List.append_nil, htakeFull] at htakeb
    have hAb : pat.length - (pat.length - A.length) = A.length := by omega
    rw [selfOverlap, List.any_eq_true]
    refine ⟨pat.length - A.length, List.mem_range.mpr hb2, ?_⟩
    rw [Bool.and_eq_true]
    refine ⟨by simp [Nat.pos_iff_ne_zero.mp hb1], ?_⟩
    rw [beq_iff_eq, hAb, htakeb]

lemma no_early_occurrence (pat A rest : List Char)
    (h1 : occursIn pat A = false) (h2 : selfOverlap pat = false) :
    ∀ k, k < A.length → pat.isPrefixOf ((A ++ (pat ++ rest)).drop k) = false := by
  intro k hk
  by_contra hcon
  rw [Bool.not_eq_false] at hcon
  have hdrop : (A ++ (pat ++ rest)).drop k = A.drop k ++ (pat ++ rest) := by
    rw [List.drop_append_eq_append_drop, Nat.sub_eq_zero_of_le (Nat.le_of_lt hk),
        List.drop_zero]
  rw [hdrop] at hcon
  have hne : A.drop k ≠ [] := by
    intro hnil
    have hlen := congrArg List.length hnil
    rw [List.length_drop] at hlen
    simp at hlen
    omega
  rcases prefix_append_cross pat (A.drop k) rest hne hcon with hocc | hov
  · rw [occursIn_drop pat A k hocc] at h1
    exact Bool.noConfusion h1
  · rw [hov] at h2
    exact Bool.noConfusion h2

lemma getSubstitution_no_dollar (matched before after rep : List Char)
    (h : '$' ∉ rep) : getSubstitution matched before after rep = rep := by
  induction rep with
  | nil => rfl
  | cons c rest ih =>
      have hc : c ≠ '$' := fun he => h (he ▸ List.mem_cons_self c rest)
      have hrest : '$' ∉ rest := fun hm => h (List.mem_cons_of_mem c hm)
      rw [getSubstitution.eq_def]
      dsimp only
      rw [if_neg hc, ih hrest]

lemma splitAtPat_append (pat a rest : List Char)
    (h : ∀ k, k < a.length → pat.isPrefixOf ((a ++ (pat ++ rest)).drop k) = false) :
    splitAtPat pat (a ++ (pat ++ rest)) = some (a, rest) := by
  induction a with
  | nil =>
      simp only [List.nil_append]
      cases hpat : pat with
      | nil =>
          cases rest with
          | nil => rfl
          | cons r rs => simp [splitAtPat, List.isPrefixOf]
      | cons p ps =>
          simp only [List.cons_append, splitAtPat]
          rw [if_pos (by
            rw [isPrefixOf_iff_append]
            exact ⟨rest, by simp⟩)]
          have hdrop : (p :: (ps ++ rest)).drop (p :: ps).length = rest := by
            show (p :: (ps ++ rest)).drop (ps.length + 1) = rest
            rw [List.drop_succ_cons, List.drop_left]
          simp only [List.append_eq]
          rw [hdrop]
  | cons x a' ih =>
      have h0 := h 0 (by simp)
      rw [List.drop_zero] at h0
      simp only [List.cons_append] at h0 ⊢
      simp only [splitAtPat]
      rw [if_neg (by rw [h0]; exact Bool.false_ne_true)]
      have hsub : splitAtPat pat (a' ++ (pat ++ rest)) = some (a', rest) := by
        apply ih
        intro k hk
        have hk1 := h (k + 1) (by simp only [List.length_cons]; omega)
        rw [show ((x :: a') ++ (pat ++ rest)).drop (k + 1) =
            (a' ++ (pat ++ rest)).drop k from by
          simp only [List.cons_append, List.drop_succ_cons]] at hk1
        exact hk1
      rw [hsub]

lemma replaceFirstL_planted (pat rep a rest : List Char)
    (h1 : occursIn pat a = false) (h2 : selfOverlap pat = false) :
    replaceFirstL pat rep (a ++ (pat ++ rest)) =
      a ++ (getSubstitution pat a rest rep ++ rest) := by
  unfold replaceFirstL
  rw [splitAtPat_append pat a rest (no_early_occurrence pat a rest h1 h2)]

/-- C8 counterexample: two concrete deviations from the claim.  With
an empty file collection the code substitutes the Italian literal
`"Nessuno"`, not the `"None"` marker the claim names; and the
substitution of the project content is not verbatim, because
`String.replace` interprets dollar escapes in the replacement — a
content equal to `"$&"` is expanded to the matched placeholder token
itself. -/
theorem claim_C8_counterexample :
    findAdditionalFilesPrompt
        { fullProjectContent := "ctx", files := [], documentationNotes := "" }
        "PARSED_FILES_PLACEHOLDER" = "Nessuno" ∧
    findAdditionalFilesPromptSpec
        { fullProjectContent := "ctx", files := [], documentationNotes := "" }
        "PARSED_FILES_PLACEHOLDER" = "None" ∧
    findAdditionalFilesPrompt
        { fullProjectContent := "ctx", files := [], documentationNotes := "" }
        "PARSED_FILES_PLACEHOLDER" ≠
      findAdditionalFilesPromptSpec
        { fullProjectContent := "ctx", files := [], documentationNotes := "" }
        "PARSED_FILES_PLACEHOLDER" ∧
    findAdditionalFilesPrompt
        { fullProjectContent := "$&", files := [], documentationNotes := "" }
        "ORIGINAL_CONTENT_PLACEHOLDER" = "ORIGINAL_CONTENT_PLACEHOLDER" ∧
    ("ORIGINAL_CONTENT_PLACEHOLDER" : String) ≠ "$&" :=
  ⟨by decide, by decide, by decide, by decide, by decide⟩

/-- C8 amended: on a template containing a single occurrence of each
placeholder token (in this order, with no stray occurrence of either
token before its own — the shipped templates are of this shape), the
step's effective prompt substitutes the first occurrence of
`ORIGINAL_CONTENT_PLACEHOLDER` with `state.fullProjectContent` and the
first occurrence of `PARSED_FILES_PLACEHOLDER` with the JSON-encoded
array of the current file paths, or with the literal marker
`"Nessuno"` when the file collection is empty; each substituted value
is inserted verbatim provided it contains no dollar character
(otherwise `String.replace` interprets dollar escape sequences). -/
theorem claim_C8_amended_substitution (pd : PipelineData) (a b c : List Char)
    (ha : occursIn origToken a = false)
    (hb : occursIn parsedToken (a ++ pd.fullProjectContent.data ++ b) = false)
    (hc : '$' ∉ pd.fullProjectContent.data)
    (hd : '$' ∉ (if pd.files.length > 0 then
        jsonStringifyPaths (pd.files.map (fun f => f.path))
      else "Nessuno").data) :
    (findAdditionalFilesPrompt pd
        (String.mk (a ++ origToken ++ b ++ parsedToken ++ c))).data =
      a ++ pd.fullProjectContent.data ++ b ++
        (if pd.files.length > 0 then
          jsonStringifyPaths (pd.files.map (fun f => f.path))
         else "Nessuno").data ++ c := by
  have hov1 : selfOverlap origToken = false := by decide
  have hov2 : selfOverlap parsedToken = false := by decide
  show replaceFirstL parsedToken _
      (replaceFirstL origToken pd.fullProjectContent.data
        (a ++ origToken ++ b ++ parsedToken ++ c)) = _
  rw [show a ++ origToken ++ b ++ parsedToken ++ c =
      a ++ (origToken ++ (b ++ (parsedToken ++ c))) from by simp [List.append_assoc]]
  rw [replaceFirstL_planted origToken pd.fullProjectContent.data a
      (b ++ (parsedToken ++ c)) ha hov1]
  rw [getSubstitution_no_dollar origToken a (b ++ (parsedToken ++ c))
      pd.fullProjectContent.data hc]
  rw [show a ++ (pd.fullProjectContent.data ++ (b ++ (parsedToken ++ c))) =
      (a ++ pd.fullProjectContent.data ++ b) ++ (parsedToken ++ c) from by
    simp [List.append_assoc]]
  rw [replaceFirstL_planted parsedToken _
      (a ++ pd.fullProjectContent.data ++ b) c hb hov2]
  rw [getSubstitution_no_dollar parsedToken (a ++ pd.fullProjectContent.data ++ b) c _ hd]
  simp [List.append_assoc]

/-- C8 amended, witness: the substitution evaluated on a concrete
template with one occurrence of each token, a dollar-free content and
an empty file collection. -/
theorem claim_C8_amended_witness :
    (findAdditionalFilesPrompt
        { fullProjectContent := "CTX", files := [], documentationNotes := "" }
        (String.mk ("A ".data ++ origToken ++ " B ".data ++ parsedToken ++ " C".data))).data =
      "A ".data ++ ("CTX" : String).data ++ " B ".data ++
        (if (({ fullProjectContent := "CTX", files := [], documentationNotes := "" } :
            PipelineData)).files.length > 0 then
          jsonStringifyPaths
            ((({ fullProjectContent := "CTX", files := [], documentationNotes := "" } :
              PipelineData)).files.map (fun f => f.path))
         else "Nessuno").data ++ " C".data :=
  claim_C8_amended_substitution
    { fullProjectContent := "CTX", files := [], documentationNotes := "" }
    "A ".data " B ".data " C".data (by decide) (by decide) (by decide) (by decide)
